import Mathlib

/-!
Shallow embedding of the `wires` task tracker's dependency-graph engine
(`src/db.rs`, `src/models.rs`, `src/commands/done.rs`).

The SQLite tables are modelled as plain lists: `DB.wires` is the list of task
rows (in insertion order) and `DB.deps` the list of dependency edges
`(wire_id, depends_on)`.  Each Rust function that the claims touch is
translated into an executable Lean function of the same name.
-/

namespace Wires

/-- `Status` from `src/models.rs`: TODO, IN_PROGRESS, DONE, CANCELLED. -/
inductive Status where
  | todo
  | inProgress
  | done
  | cancelled
deriving DecidableEq

/-- A task row, as read back through `wire_from_row` (`src/db.rs`).
`description` is the domain view: `wire_from_row` filters an empty stored
string to `None`, so a stored empty description reads back as `none`. -/
structure Wire where
  id : String
  title : String
  description : Option String
  status : Status
  created_at : Int
  updated_at : Int
  priority : Int
deriving DecidableEq

/-- `DependencyInfo` from `src/models.rs`. -/
structure DependencyInfo where
  id : String
  title : String
  status : Status
deriving DecidableEq

/-- `WireError` from `src/models.rs` (the variants relevant to the claims). -/
inductive WireError where
  | NotARepository
  | AlreadyInitialized (path : String)
  | WireNotFound (id : String)
  | CircularDependency (cycle : List String)
deriving DecidableEq

/-- The database state: the `wires` table and the `dependencies` table. -/
structure DB where
  wires : List Wire
  deps : List (String × String)
deriving DecidableEq

/-- `SELECT COUNT(*) FROM wires WHERE id = ?1` compared with 0
(the existence checks in `add_dependency`, `src/db.rs`). -/
def wireExists (db : DB) (id : String) : Bool :=
  db.wires.any (fun w => decide (w.id = id))

/-- `SELECT depends_on FROM dependencies WHERE wire_id = ?1`
(the neighbor query inside `would_create_cycle`, `src/db.rs`). -/
def depsOf (E : List (String × String)) (x : String) : List String :=
  (E.filter (fun p => decide (p.1 = x))).map (fun p => p.2)

/-- `parent_map.get(&node)`: the parent map is a `HashMap`; inserts overwrite,
which an association list with cons-to-front and first-match lookup models. -/
def lookupParent (m : List (String × String)) (k : String) : Option String :=
  (m.find? (fun p => decide (p.1 = k))).map (fun p => p.2)

/-- The `while node != wire_id` reconstruction loop of `would_create_cycle`
(`src/db.rs`).  `path` accumulates pushed nodes; the walk follows parent
pointers and breaks when a node has no parent.  The source loop terminates
because parent chains produced by the DFS are acyclic; the fuel
`m.length + 1` bounds any such terminating walk. -/
def reconstructWalk (wireId : String) (m : List (String × String)) :
    Nat → String → List String → List String
  | 0, _, path => path
  | fuel + 1, node, path =>
    if node = wireId then path
    else
      match lookupParent m node with
      | some p => reconstructWalk wireId m fuel p (path ++ [node])
      | none => path ++ [node]

/-- Cycle-path reconstruction in `would_create_cycle`:
`path = [wire_id]`, walk from `depends_on`, `path.push(wire_id)`, reverse. -/
def reconstructPath (wireId dependsOn : String) (m : List (String × String)) :
    List String :=
  (reconstructWalk wireId m (m.length + 1) dependsOn [wireId] ++ [wireId]).reverse

/-- The `while let Some(current) = stack.pop_back()` loop of
`would_create_cycle` (`src/db.rs`).  The `VecDeque` used with
`push_back`/`pop_back` is a LIFO stack, modelled with the list head as the top
of the stack: pushing `deps` in order and popping from the back visits them in
reverse order, hence `nd.reverse ++ rest`.  The loop runs at most
`1 + E.length` iterations (each iteration pops one element; at most one push
per edge out of a freshly visited node), so the fuel supplied by
`would_create_cycle` below is never exhausted (`dfsLoop_none_sound`). -/
def dfsLoop (E : List (String × String)) (wireId dependsOn : String) :
    Nat → List String → List String → List (String × String) →
    Option (List String)
  | 0, _, _, _ => none
  | _ + 1, _, [], _ => none
  | fuel + 1, visited, current :: rest, parent =>
    if current ∈ visited then
      dfsLoop E wireId dependsOn fuel visited rest parent
    else
      if current = wireId then
        some (reconstructPath wireId dependsOn parent)
      else
        let nd := (depsOf E current).filter (fun d => !decide (d ∈ current :: visited))
        dfsLoop E wireId dependsOn fuel (current :: visited)
          (nd.reverse ++ rest)
          (nd.foldl (fun m d => (d, current) :: m) parent)

/-- `would_create_cycle` (`src/db.rs`): self-edges are reported as
`[wire_id, wire_id]`; otherwise a DFS from `depends_on` through existing
prerequisite edges looks for `wire_id`. -/
def would_create_cycle (E : List (String × String)) (wire_id depends_on : String) :
    Option (List String) :=
  if wire_id = depends_on then some [wire_id, wire_id]
  else dfsLoop E wire_id depends_on (E.length + 2) [] [depends_on] []

/-- `add_dependency` (`src/db.rs`): existence checks on both endpoints, the
cycle check, then `INSERT OR IGNORE` — the edge is appended only when not
already present (the table's primary key is `(wire_id, depends_on)`). -/
def add_dependency (db : DB) (wire_id depends_on : String) :
    Except WireError DB :=
  if ¬ wireExists db wire_id then .error (.WireNotFound wire_id)
  else if ¬ wireExists db depends_on then .error (.WireNotFound depends_on)
  else
    match would_create_cycle db.deps wire_id depends_on with
    | some cycle => .error (.CircularDependency cycle)
    | none =>
      if (wire_id, depends_on) ∈ db.deps then .ok db
      else .ok { db with deps := db.deps ++ [(wire_id, depends_on)] }

/-- `remove_dependency` (`src/db.rs`): a bare
`DELETE FROM dependencies WHERE wire_id = ?1 AND depends_on = ?2`,
with no existence check on either id; it always succeeds. -/
def remove_dependency (db : DB) (wire_id depends_on : String) :
    Except WireError DB :=
  .ok { db with
        deps := db.deps.filter
          (fun p => !(decide (p.1 = wire_id) && decide (p.2 = depends_on))) }

/-- `update_wire` (`src/db.rs`): if no field is supplied the function returns
without touching the database; otherwise every row whose id matches is
updated and `updated_at` is set to `now`.  A supplied description is bound as
`d.unwrap_or("")`; reading it back through `wire_from_row` filters the empty
string to `none`, which this domain-level model applies directly. -/
def update_wire (db : DB) (wire_id : String) (title : Option String)
    (descr : Option (Option String)) (status : Option Status)
    (priority : Option Int) (now : Int) : DB :=
  if title.isNone ∧ descr.isNone ∧ status.isNone ∧ priority.isNone then db
  else
    { db with
      wires := db.wires.map (fun w =>
        if w.id = wire_id then
          { w with
            title := title.getD w.title
            description :=
              match descr with
              | none => w.description
              | some d => if d.getD "" = "" then none else some (d.getD "")
            status := status.getD w.status
            priority := priority.getD w.priority
            updated_at := now }
        else w) }

/-- `SELECT ... FROM wires WHERE id = ?1` via `query_row`
(`get_wire_with_deps`, `src/db.rs`): the first matching row, or an error. -/
def find_wire (db : DB) (wire_id : String) : Option Wire :=
  db.wires.find? (fun w => decide (w.id = wire_id))

/-- `check_incomplete_dependencies` (`src/db.rs`): the wires joined through a
`dependencies` edge with `wire_id = ?1` whose status is not DONE. -/
def check_incomplete_dependencies (db : DB) (wire_id : String) :
    List DependencyInfo :=
  (db.wires.filter (fun w =>
      decide ((wire_id, w.id) ∈ db.deps) && !decide (w.status = .done))).map
    (fun w => ⟨w.id, w.title, w.status⟩)

/-- `run` from `src/commands/done.rs`: compute the incomplete dependencies,
set the status to DONE via `update_wire`, then re-fetch the wire — a missing
id surfaces as `WireNotFound` at the re-fetch, and the warnings are attached
to the successful result. -/
def doneRun (db : DB) (wire_id : String) (now : Int) :
    Except WireError (DB × List DependencyInfo) :=
  let incomplete := check_incomplete_dependencies db wire_id
  let db' := update_wire db wire_id none none (some .done) none now
  match find_wire db' wire_id with
  | none => .error (.WireNotFound wire_id)
  | some _ => .ok (db', incomplete)

/-- The `CASE w.status WHEN 'IN_PROGRESS' THEN 0 WHEN 'TODO' THEN 1 END`
sort key of `get_ready_wires` (`src/db.rs`).  The `WHERE` clause restricts
rows to TODO/IN_PROGRESS, so the rank of DONE/CANCELLED never matters. -/
def statusRank : Status → Nat
  | .inProgress => 0
  | .todo => 1
  | .done => 2
  | .cancelled => 3

/-- The `WHERE` clause of `get_ready_wires`: status in (TODO, IN_PROGRESS)
and no dependency edge joining to a wire whose status is not DONE. -/
def isReadyRow (db : DB) (w : Wire) : Bool :=
  (decide (w.status = .todo) || decide (w.status = .inProgress)) &&
  !(db.deps.any (fun d =>
      decide (d.1 = w.id) &&
      db.wires.any (fun dep =>
        decide (dep.id = d.2) && !decide (dep.status = .done))))

/-- The `ORDER BY` comparison of `get_ready_wires`: status rank ascending,
then priority descending. -/
def readyLE (a b : Wire) : Bool :=
  decide (statusRank a.status < statusRank b.status) ||
  (decide (statusRank a.status = statusRank b.status) &&
   decide (b.priority ≤ a.priority))

/-- `get_ready_wires` (`src/db.rs`): filter to ready rows, sort by
status rank then priority descending.  The function is a pure query:
it reads the state and mutates nothing. -/
def get_ready_wires (db : DB) : List Wire :=
  (db.wires.filter (isReadyRow db)).mergeSort readyLE

/-- The description binding of `insert_wire` (`src/db.rs`):
`wire.description.as_deref().unwrap_or("")` — `None` is stored as `""`. -/
def insert_wire_description (d : Option String) : String :=
  d.getD ""

/-- The description binding of `update_wire` (`src/db.rs`):
`d.unwrap_or("")` — an explicit clear is stored as `""`. -/
def update_wire_description (d : Option String) : String :=
  d.getD ""

/-- The description read-back of `wire_from_row` (`src/db.rs`):
`description.filter(|s| !s.is_empty())`. -/
def wire_from_row_description (stored : Option String) : Option String :=
  stored.filter (fun s => !s.isEmpty)

/-- A sequence of `add_dependency` requests applied in order; a request that
fails leaves the state untouched (the error carries no state change). -/
def applyAdds (db : DB) (reqs : List (String × String)) : DB :=
  reqs.foldl
    (fun d r =>
      match add_dependency d r.1 r.2 with
      | .ok d' => d'
      | .error _ => d)
    db

/-- A concrete task row used by concrete scenarios: status Todo, no
description, timestamps and priority 0. -/
def mkWire (id : String) : Wire :=
  ⟨id, "Wire " ++ id, none, .todo, 0, 0, 0⟩

/-- Tasks a, b, c with the chain a→b, b→c. -/
def dbChain : DB :=
  ⟨[mkWire "a", mkWire "b", mkWire "c"], [("a", "b"), ("b", "c")]⟩

/-- Tasks a, b, c, d with the diamond d→b, d→c, b→a, c→a. -/
def dbDiamond : DB :=
  ⟨[mkWire "a", mkWire "b", mkWire "c", mkWire "d"],
   [("d", "b"), ("d", "c"), ("b", "a"), ("c", "a")]⟩

/-- Tasks a and b with the single edge a→b. -/
def dbAB : DB :=
  ⟨[mkWire "a", mkWire "b"], [("a", "b")]⟩

/-- A single task b and no edges. -/
def dbOnlyB : DB :=
  ⟨[mkWire "b"], []⟩

/-- Reachability along stored dependency edges: `Reaches E x y` holds when
there is a (possibly empty) chain of edges of `E` from `x` to `y`. -/
inductive Reaches (E : List (String × String)) : String → String → Prop
  | refl (x : String) : Reaches E x x
  | step {x y z : String} : (x, y) ∈ E → Reaches E y z → Reaches E x z

/-- Acyclicity of the dependency edge set: no task has a nonempty edge chain
back to itself. -/
def Acyclic (E : List (String × String)) : Prop :=
  ∀ x y : String, (x, y) ∈ E → ¬ Reaches E y x

theorem reaches_trans {E : List (String × String)} {a b c : String}
    (h1 : Reaches E a b) (h2 : Reaches E b c) : Reaches E a c := by
  induction h1 with
  | refl => exact h2
  | step he _ ih => exact .step he (ih h2)

theorem reaches_snoc {E : List (String × String)} {a b c : String}
    (h1 : Reaches E a b) (h2 : (b, c) ∈ E) : Reaches E a c :=
  reaches_trans h1 (.step h2 (.refl c))

theorem mem_depsOf {E : List (String × String)} {x d : String} :
    d ∈ depsOf E x ↔ (x, d) ∈ E := by
  simp only [depsOf, List.mem_map, List.mem_filter, decide_eq_true_eq]
  constructor
  · rintro ⟨p, ⟨hp, h1⟩, h2⟩
    have : p = (x, d) := by cases p; simp_all
    simpa [this] using hp
  · intro h
    exact ⟨(x, d), ⟨h, rfl⟩, rfl⟩

/-- The empty edge set is acyclic. -/
theorem acyclic_nil : Acyclic [] := by
  intro x y h
  simp at h

/-- A ranking argument for acyclicity: if every edge strictly decreases a
measure from source to target, the edge set is acyclic. -/
theorem acyclic_of_rank (E : List (String × String)) (f : String → Nat)
    (h : ∀ p ∈ E, f p.2 < f p.1) : Acyclic E := by
  have key : ∀ {a b : String}, Reaches E a b → f b ≤ f a := by
    intro a b hr
    induction hr with
    | refl => exact le_refl _
    | step he _ ih => exact ih.trans (le_of_lt (h _ he))
  intro x y hxy hr
  exact absurd (key hr) (not_le.mpr (h (x, y) hxy))

/-- Soundness of the DFS worklist loop: if every stack entry is reachable
from `dependsOn` and `wireId` is not reachable from `dependsOn`, the loop
reports no cycle. -/
theorem dfsLoop_none_of_not_reaches (E : List (String × String))
    (wireId dependsOn : String) :
    ∀ (fuel : Nat) (visited stack : List String)
      (parent : List (String × String)),
      (∀ x ∈ stack, Reaches E dependsOn x) →
      ¬ Reaches E dependsOn wireId →
      dfsLoop E wireId dependsOn fuel visited stack parent = none := by
  intro fuel
  induction fuel with
  | zero => intro visited stack parent _ _; rfl
  | succ n ih =>
    intro visited stack parent hstack hnr
    match stack with
    | [] => rfl
    | current :: rest =>
      rw [dfsLoop]
      by_cases hv : current ∈ visited
      · simp only [hv, if_true]
        exact ih visited rest parent (fun x hx => hstack x (.tail _ hx)) hnr
      · simp only [hv, if_false]
        have hcur : Reaches E dependsOn current := hstack current (.head _)
        have hcw : ¬ current = wireId := by
          intro h; exact hnr (h ▸ hcur)
        simp only [hcw, if_false]
        apply ih
        · intro x hx
          rcases List.mem_append.mp hx with hx | hx
          · have : x ∈ (depsOf E current).filter
                (fun d => !decide (d ∈ current :: visited)) :=
              List.mem_reverse.mp hx
            have hxd : x ∈ depsOf E current := List.mem_of_mem_filter this
            exact reaches_snoc hcur (mem_depsOf.mp hxd)
          · exact hstack x (.tail _ hx)
        · exact hnr

/-- If a set `V` is closed under outgoing edges and does not contain `w`,
no member of `V` reaches `w`. -/
theorem not_reaches_of_closed {E : List (String × String)} {V : List String}
    {w : String} (hclosed : ∀ x ∈ V, ∀ y, (x, y) ∈ E → y ∈ V) (hw : w ∉ V) :
    ∀ z ∈ V, ¬ Reaches E z w := by
  have key : ∀ a b : String, Reaches E a b → a ∈ V → b ∈ V := by
    intro a b hr
    induction hr with
    | refl => exact id
    | step he _ ih => intro ha; exact ih (hclosed _ ha _ he)
  intro z hz hr
  exact hw (key _ _ hr hz)

theorem length_filter_split {α : Type} (l : List α) (p q : α → Bool) :
    (l.filter p).length =
      (l.filter (fun a => p a && q a)).length +
      (l.filter (fun a => p a && !q a)).length := by
  induction l with
  | nil => rfl
  | cons a t ih =>
    by_cases hp : p a
    · by_cases hq : q a
      · simp [List.filter_cons, hp, hq, ih]
        omega
      · simp only [Bool.not_eq_true] at hq
        simp [List.filter_cons, hp, hq, ih]
        omega
    · simp only [Bool.not_eq_true] at hp
      simp [List.filter_cons, hp, ih]

/-- Completeness of the DFS worklist loop: with enough fuel (one unit per
pending stack entry plus one per edge out of a not-yet-visited node), a `none`
result means no stack entry and no visited node reaches `wireId`.  The fuel
bound mirrors the loop's actual iteration count: every iteration pops one
entry, and entries are pushed at most once per edge out of a freshly visited
node. -/
theorem dfsLoop_none_sound (E : List (String × String))
    (wireId dependsOn : String) :
    ∀ (fuel : Nat) (visited stack : List String)
      (parent : List (String × String)),
      stack.length + (E.filter (fun p => !decide (p.1 ∈ visited))).length + 1 ≤ fuel →
      (∀ x ∈ visited, ∀ y, (x, y) ∈ E → y ∈ visited ∨ y ∈ stack) →
      wireId ∉ visited →
      dfsLoop E wireId dependsOn fuel visited stack parent = none →
      ∀ z, (z ∈ stack ∨ z ∈ visited) → ¬ Reaches E z wireId := by
  intro fuel
  induction fuel with
  | zero => intro visited stack parent hfuel; omega
  | succ n ih =>
    intro visited stack parent hfuel hclosed hw hres
    match stack with
    | [] =>
      intro z hz
      have hz' : z ∈ visited := by
        rcases hz with hz | hz
        · simp at hz
        · exact hz
      refine not_reaches_of_closed ?_ hw z hz'
      intro x hx y hy
      rcases hclosed x hx y hy with h | h
      · exact h
      · simp at h
    | current :: rest =>
      rw [dfsLoop] at hres
      by_cases hv : current ∈ visited
      · rw [if_pos hv] at hres
        have hfuel' : rest.length +
            (E.filter (fun p => !decide (p.1 ∈ visited))).length + 1 ≤ n := by
          simp only [List.length_cons] at hfuel; omega
        have hclosed' : ∀ x ∈ visited, ∀ y, (x, y) ∈ E →
            y ∈ visited ∨ y ∈ rest := by
          intro x hx y hy
          rcases hclosed x hx y hy with h | h
          · exact Or.inl h
          · rcases List.mem_cons.mp h with h | h
            · exact Or.inl (h ▸ hv)
            · exact Or.inr h
        have key := ih visited rest parent hfuel' hclosed' hw hres
        intro z hz
        rcases hz with hz | hz
        · rcases List.mem_cons.mp hz with hz | hz
          · exact key z (Or.inr (hz ▸ hv))
          · exact key z (Or.inl hz)
        · exact key z (Or.inr hz)
      · rw [if_neg hv] at hres
        by_cases hcw : current = wireId
        · rw [if_pos hcw] at hres
          simp at hres
        · rw [if_neg hcw] at hres
          simp only [] at hres
          set nd := (depsOf E current).filter
            (fun d => !decide (d ∈ current :: visited)) with hnd
          -- fuel accounting
          have hdeg : (depsOf E current).length =
              (E.filter (fun p => decide (p.1 = current))).length := by
            simp [depsOf]
          have hndle : nd.length ≤
              (E.filter (fun p => decide (p.1 = current))).length := by
            rw [hnd, ← hdeg]
            exact List.length_filter_le _ _
          have hsplit := length_filter_split E
            (fun p => !decide (p.1 ∈ visited)) (fun p => decide (p.1 = current))
          have heq1 : E.filter
                (fun p => !decide (p.1 ∈ visited) && decide (p.1 = current)) =
              E.filter (fun p => decide (p.1 = current)) := by
            apply List.filter_congr
            intro p _
            by_cases hp : p.1 = current
            · simp [hp, hv]
            · simp [hp]
          have heq2 : E.filter
                (fun p => !decide (p.1 ∈ visited) && !decide (p.1 = current)) =
              E.filter (fun p => !decide (p.1 ∈ current :: visited)) := by
            apply List.filter_congr
            intro p _
            by_cases hp : p.1 = current
            · simp [hp]
            · by_cases hpv : p.1 ∈ visited <;> simp [hp, hpv]
          rw [heq1, heq2] at hsplit
          have hfuel' : (nd.reverse ++ rest).length +
              (E.filter (fun p => !decide (p.1 ∈ current :: visited))).length +
                1 ≤ n := by
            simp only [List.length_append, List.length_reverse,
              List.length_cons] at hfuel ⊢
            omega
          have hclosed' : ∀ x ∈ current :: visited, ∀ y, (x, y) ∈ E →
              y ∈ current :: visited ∨ y ∈ nd.reverse ++ rest := by
            intro x hx y hy
            rcases List.mem_cons.mp hx with hx | hx
            · by_cases hyv : y ∈ current :: visited
              · exact Or.inl hyv
              · refine Or.inr (List.mem_append.mpr (Or.inl ?_))
                rw [List.mem_reverse, hnd, List.mem_filter]
                exact ⟨mem_depsOf.mpr (hx ▸ hy), by simpa using hyv⟩
            · rcases hclosed x hx y hy with h | h
              · exact Or.inl (List.mem_cons.mpr (Or.inr h))
              · rcases List.mem_cons.mp h with h | h
                · exact Or.inl (List.mem_cons.mpr (Or.inl h))
                · exact Or.inr (List.mem_append.mpr (Or.inr h))
          have hw' : wireId ∉ current :: visited := by
            intro h
            rcases List.mem_cons.mp h with h | h
            · exact hcw h.symm
            · exact hw h
          have key := ih (current :: visited) (nd.reverse ++ rest) _
            hfuel' hclosed' hw' hres
          intro z hz
          rcases hz with hz | hz
          · rcases List.mem_cons.mp hz with hz | hz
            · exact key z (Or.inr (by simp [hz]))
            · exact key z (Or.inl (List.mem_append.mpr (Or.inr hz)))
          · exact key z (Or.inr (List.mem_cons.mpr (Or.inr hz)))

/-- Characterization of the cycle check: `would_create_cycle` reports no
cycle exactly when the proposed edge is not a self-edge and `wire_id` is not
reachable from `depends_on` along existing edges. -/
theorem would_create_cycle_none_iff (E : List (String × String))
    (w s : String) :
    would_create_cycle E w s = none ↔ (w ≠ s ∧ ¬ Reaches E s w) := by
  rw [would_create_cycle]
  by_cases hws : w = s
  · simp [hws]
  · rw [if_neg hws]
    constructor
    · intro hres
      refine ⟨hws, ?_⟩
      have hfilter : E.filter (fun p => !decide (p.1 ∈ ([] : List String))) = E := by
        simp
      exact dfsLoop_none_sound E w s (E.length + 2) [] [s] []
        (by rw [hfilter]; simp; omega)
        (by intro x hx; simp at hx)
        (by simp)
        hres s (Or.inl (by simp))
    · rintro ⟨_, hnr⟩
      exact dfsLoop_none_of_not_reaches E w s (E.length + 2) [] [s] []
        (by intro x hx; rcases List.mem_singleton.mp hx with rfl; exact .refl x)
        hnr

/-- Any chain in the edge set extended with `(w, s)` either avoids the new
edge entirely or decomposes into an old chain to `w` and an old chain
from `s`. -/
theorem reaches_append_elim {E : List (String × String)} {w s a b : String}
    (h : Reaches (E ++ [(w, s)]) a b) :
    Reaches E a b ∨ (Reaches E a w ∧ Reaches E s b) := by
  induction h with
  | refl x => exact Or.inl (.refl x)
  | @step x y z he _ ih =>
    rcases List.mem_append.mp he with he | he
    · rcases ih with ih | ⟨ih1, ih2⟩
      · exact Or.inl (.step he ih)
      · exact Or.inr ⟨.step he ih1, ih2⟩
    · have hxy : x = w ∧ y = s := by simpa [Prod.ext_iff] using he
      rcases ih with ih | ⟨_, ih2⟩
      · exact Or.inr ⟨by rw [hxy.1]; exact .refl w, by rw [← hxy.2]; exact ih⟩
      · exact Or.inr ⟨by rw [hxy.1]; exact .refl w, ih2⟩

/-- Appending the edge `(w, s)` to an acyclic edge set keeps it acyclic as
long as `w` is not reachable from `s`. -/
theorem acyclic_insert {E : List (String × String)} {w s : String}
    (hA : Acyclic E) (hnr : ¬ Reaches E s w) :
    Acyclic (E ++ [(w, s)]) := by
  intro x y hxy hr
  rcases List.mem_append.mp hxy with hxy | hxy
  · rcases reaches_append_elim hr with h | ⟨h1, h2⟩
    · exact hA x y hxy h
    · exact hnr (reaches_trans h2 (.step hxy h1))
  · obtain ⟨hx, hy⟩ : x = w ∧ y = s := by simpa [Prod.ext_iff] using hxy
    subst hx; subst hy
    rcases reaches_append_elim hr with h | ⟨h1, _⟩
    · exact hnr h
    · exact hnr h1

/-- A successful `add_dependency` preserves acyclicity of the edge set. -/
theorem add_dependency_ok_acyclic {db : DB} {u v : String} {db' : DB}
    (hok : add_dependency db u v = .ok db') (hA : Acyclic db.deps) :
    Acyclic db'.deps := by
  rw [add_dependency] at hok
  by_cases h1 : ¬ wireExists db u = true
  · rw [if_pos h1] at hok; cases hok
  · rw [if_neg h1] at hok
    by_cases h2 : ¬ wireExists db v = true
    · rw [if_pos h2] at hok; cases hok
    · rw [if_neg h2] at hok
      cases hcyc : would_create_cycle db.deps u v with
      | some cycle => rw [hcyc] at hok; cases hok
      | none =>
        rw [hcyc] at hok
        obtain ⟨hne, hnr⟩ := (would_create_cycle_none_iff db.deps u v).mp hcyc
        by_cases hmem : (u, v) ∈ db.deps
        · rw [if_pos hmem] at hok; cases hok; exact hA
        · rw [if_neg hmem] at hok
          cases hok
          exact acyclic_insert hA hnr

/-- C1: starting from an acyclic edge set, any sequence of `add_dependency`
calls — keeping exactly the successful insertions — leaves the stored edge
set acyclic: no accepted edge ever closes a directed cycle. -/
theorem applyAdds_acyclic (db : DB) (reqs : List (String × String))
    (hA : Acyclic db.deps) : Acyclic (applyAdds db reqs).deps := by
  induction reqs generalizing db with
  | nil => exact hA
  | cons r rest ih =>
    rw [applyAdds, List.foldl_cons]
    cases hstep : add_dependency db r.1 r.2 with
    | ok d' => exact ih d' (add_dependency_ok_acyclic hstep hA)
    | error e => exact ih db hA

/-- C9: adding an edge that is already stored succeeds and changes nothing:
the `INSERT OR IGNORE` drops the duplicate, and the cycle check cannot fire
because a path from `depends_on` back to `wire_id` together with the stored
edge would already be a cycle. -/
theorem add_dependency_idem (db : DB) (u v : String)
    (hu : wireExists db u = true) (hv : wireExists db v = true)
    (hmem : (u, v) ∈ db.deps) (hA : Acyclic db.deps) :
    add_dependency db u v = .ok db := by
  have hnr : ¬ Reaches db.deps v u := hA u v hmem
  have hne : u ≠ v := by
    intro h
    exact hnr (by rw [h]; exact .refl v)
  have hcyc : would_create_cycle db.deps u v = none :=
    (would_create_cycle_none_iff db.deps u v).mpr ⟨hne, hnr⟩
  rw [add_dependency, if_neg (by simp [hu]), if_neg (by simp [hv]), hcyc,
    if_pos hmem]

/-- C7: a proposed self-edge on an existing task is always rejected with
`CircularDependency` and the reported path `[A, A]`; the error path inserts
nothing. -/
theorem self_edge_rejected (db : DB) (A : String)
    (h : wireExists db A = true) :
    add_dependency db A A = .error (.CircularDependency [A, A]) := by
  rw [add_dependency, if_neg (by simp [h]), if_neg (by simp [h]),
    would_create_cycle, if_pos rfl]

theorem lookupParent_foldl_none {s current : String} (l : List String)
    (parent : List (String × String))
    (hp : lookupParent parent s = none) (hl : ∀ d ∈ l, d ≠ s) :
    lookupParent (l.foldl (fun m d => (d, current) :: m) parent) s = none := by
  induction l generalizing parent with
  | nil => exact hp
  | cons d t ih =>
    rw [List.foldl_cons]
    refine ih _ ?_ (fun x hx => hl x (.tail _ hx))
    have hd : (decide (((d, current) : String × String).1 = s)) = false := by
      simp [hl d (.head _)]
    rw [lookupParent, List.find?_cons, hd]
    exact hp

theorem reconstructPath_of_no_parent {w s : String}
    {m : List (String × String)} (hp : lookupParent m s = none)
    (hne : s ≠ w) : reconstructPath w s m = [w, s, w] := by
  rw [reconstructPath, reconstructWalk, if_neg hne, hp]
  rfl

/-- Inside the DFS loop, once `dependsOn` is visited it never gains a parent
pointer, so any reported cycle path is the degenerate
`[wireId, dependsOn, wireId]`. -/
theorem dfsLoop_some_shape (E : List (String × String)) (w s : String)
    (hsw : s ≠ w) :
    ∀ (fuel : Nat) (visited stack : List String)
      (parent : List (String × String)) (p : List String),
      s ∈ visited → lookupParent parent s = none →
      dfsLoop E w s fuel visited stack parent = some p →
      p = [w, s, w] := by
  intro fuel
  induction fuel with
  | zero => intro visited stack parent p _ _ h; cases h
  | succ n ih =>
    intro visited stack parent p hs hp hres
    match stack with
    | [] => cases hres
    | current :: rest =>
      rw [dfsLoop] at hres
      by_cases hv : current ∈ visited
      · rw [if_pos hv] at hres
        exact ih visited rest parent p hs hp hres
      · rw [if_neg hv] at hres
        by_cases hcw : current = w
        · rw [if_pos hcw] at hres
          have : reconstructPath w s parent = p := by
            have := hres; simpa [hcw] using this
          rw [← this]
          exact reconstructPath_of_no_parent hp hsw
        · rw [if_neg hcw] at hres
          refine ih _ _ _ p (List.mem_cons.mpr (Or.inr hs)) ?_ hres
          refine lookupParent_foldl_none _ _ hp ?_
          intro d hd hds
          have := (List.mem_filter.mp hd).2
          rw [hds] at this
          simp [List.mem_cons.mpr (Or.inr hs)] at this

/-- C3 (amended): whenever `would_create_cycle` rejects a non-self edge, the
reported path is an ordered sequence beginning and ending at the proposed
edge's `wire_id`, but it is always the degenerate
`[wire_id, depends_on, wire_id]` — the reconstruction walk starts at
`depends_on`, the DFS root, which never has a parent pointer, so the path
never covers intermediate nodes of the actual cycle. -/
theorem would_create_cycle_some_shape (E : List (String × String))
    (u v : String) (p : List String) (hne : u ≠ v)
    (hsome : would_create_cycle E u v = some p) : p = [u, v, u] := by
  rw [would_create_cycle, if_neg hne] at hsome
  -- Unroll the first iteration by hand: it visits `v` (the root).
  rw [dfsLoop] at hsome
  rw [if_neg (by simp)] at hsome
  by_cases hvw : v = u
  · exact absurd hvw.symm hne
  · rw [if_neg hvw] at hsome
    refine dfsLoop_some_shape E u v hvw _ _ _ _ p (by simp) ?_ hsome
    refine lookupParent_foldl_none _ _ rfl ?_
    intro d hd hds
    have := (List.mem_filter.mp hd).2
    rw [hds] at this
    simp at this

/-- C2: a task appears in the ready set exactly when it is stored, its status
is Todo or InProgress, and every stored task joined through one of its
dependency edges has status Done.  In particular a Cancelled prerequisite
blocks readiness.  `get_ready_wires` is a pure function of the state, so the
query mutates nothing. -/
theorem mem_get_ready_wires_iff (db : DB) (w : Wire) :
    w ∈ get_ready_wires db ↔
      w ∈ db.wires ∧
      (w.status = Status.todo ∨ w.status = Status.inProgress) ∧
      (∀ p ∈ db.deps, p.1 = w.id →
        ∀ dep ∈ db.wires, dep.id = p.2 → dep.status = Status.done) := by
  rw [get_ready_wires, List.mem_mergeSort, List.mem_filter]
  simp only [isReadyRow, Bool.and_eq_true, Bool.or_eq_true, decide_eq_true_eq,
    Bool.not_eq_true', List.any_eq_false]
  constructor
  · rintro ⟨hw, hstatus, hdeps⟩
    refine ⟨hw, hstatus, ?_⟩
    intro p hp hid dep hdep hdepid
    by_contra hne
    refine hdeps p hp ⟨hid, ?_⟩
    rw [List.any_eq_true]
    exact ⟨dep, hdep, by simp [hdepid, hne]⟩
  · rintro ⟨hw, hstatus, hdeps⟩
    refine ⟨hw, hstatus, ?_⟩
    rintro p hp ⟨hid, hany⟩
    obtain ⟨dep, hdep, hcond⟩ := List.any_eq_true.mp hany
    simp only [Bool.and_eq_true, decide_eq_true_eq, Bool.not_eq_true',
      decide_eq_false_iff_not] at hcond
    exact hcond.2 (hdeps p hp hid dep hdep hcond.1)

theorem statusRank_inj (s t : Status) (h : statusRank s = statusRank t) :
    s = t := by
  cases s <;> cases t <;> simp_all [statusRank]

theorem readyLE_trans (a b c : Wire) (h1 : readyLE a b = true)
    (h2 : readyLE b c = true) : readyLE a c = true := by
  simp only [readyLE, Bool.or_eq_true, Bool.and_eq_true,
    decide_eq_true_eq] at h1 h2 ⊢
  omega

theorem readyLE_total (a b : Wire) : readyLE a b || readyLE b a := by
  simp only [readyLE, Bool.or_eq_true, Bool.and_eq_true, decide_eq_true_eq]
  omega

/-- C4: the ready list is ordered with every InProgress task before every
Todo task regardless of priority, and non-increasing priority within a status
group; the query is a pure function, so repeated calls against unchanged data
return the identical list. -/
theorem get_ready_wires_ordering (db : DB) :
    (get_ready_wires db).Pairwise (fun a b =>
      (b.status = Status.inProgress → a.status = Status.inProgress) ∧
      (a.status = b.status → b.priority ≤ a.priority)) ∧
    get_ready_wires db = get_ready_wires db := by
  refine ⟨?_, rfl⟩
  have hs : ((db.wires.filter (isReadyRow db)).mergeSort readyLE).Pairwise
      (fun a b => readyLE a b = true) :=
    List.sorted_mergeSort readyLE_trans readyLE_total _
  rw [get_ready_wires]
  refine hs.imp ?_
  intro a b hab
  simp only [readyLE, Bool.or_eq_true, Bool.and_eq_true,
    decide_eq_true_eq] at hab
  constructor
  · intro hb
    have hrb : statusRank b.status = 0 := by rw [hb]; rfl
    rcases hab with h | ⟨heq, _⟩
    · exact absurd (hrb ▸ h) (Nat.not_lt_zero _)
    · have hst : a.status = b.status := statusRank_inj _ _ heq
      rw [hst]; exact hb
  · intro hstat
    rcases hab with h | ⟨_, hp⟩
    · rw [hstat] at h; exact absurd h (lt_irrefl _)
    · exact hp

theorem wireExists_false_iff (db : DB) (u : String) :
    wireExists db u = false ↔ ∀ w ∈ db.wires, w.id ≠ u := by
  simp [wireExists, List.any_eq_false]

theorem db_set_wires_eq (db : DB) (l : List Wire) (h : l = db.wires) :
    { db with wires := l } = db := by
  rw [h]

/-- `update_wire` addressed at an id that matches no row changes nothing:
the `UPDATE ... WHERE id = ?` matches zero rows. -/
theorem update_wire_missing (db : DB) (u : String) (t : Option String)
    (d : Option (Option String)) (s : Option Status) (p : Option Int)
    (now : Int) (hu : wireExists db u = false) :
    update_wire db u t d s p now = db := by
  rw [update_wire]
  split_ifs with h
  · rfl
  · have hids := (wireExists_false_iff db u).mp hu
    refine db_set_wires_eq db _ ?_
    refine (List.map_congr_left ?_).trans (List.map_id _)
    intro a ha
    rw [if_neg (hids a ha)]
    rfl

theorem find_wire_eq_none (db : DB) (u : String)
    (hu : wireExists db u = false) : find_wire db u = none := by
  rw [find_wire, List.find?_eq_none]
  intro w hw
  simp [(wireExists_false_iff db u).mp hu w hw]

theorem doneRun_missing (db : DB) (u : String) (now : Int)
    (hu : wireExists db u = false) :
    doneRun db u now = .error (.WireNotFound u) := by
  rw [doneRun]
  simp only [update_wire_missing db u _ _ _ _ _ hu,
    find_wire_eq_none db u hu]

/-- C5: for an existing task, the Done transition always succeeds — even with
incomplete prerequisites — sets every row with that id to Done, and the
attached warnings are exactly the direct dependencies whose status is not
Done, read in the same operation (before the update). -/
theorem done_sets_done_and_warns (db : DB) (X : String) (now : Int)
    (h : wireExists db X = true) :
    doneRun db X now =
      .ok (update_wire db X none none (some .done) none now,
           check_incomplete_dependencies db X) ∧
    (∀ w ∈ (update_wire db X none none (some .done) none now).wires,
      w.id = X → w.status = Status.done) ∧
    (∀ i : DependencyInfo,
      i ∈ check_incomplete_dependencies db X ↔
      ∃ w, w ∈ db.wires ∧ (X, w.id) ∈ db.deps ∧ w.status ≠ Status.done ∧
        i = ⟨w.id, w.title, w.status⟩) := by
  have hup : (update_wire db X none none (some .done) none now).wires =
      db.wires.map (fun w =>
        if w.id = X then
          { w with status := Status.done, updated_at := now }
        else w) := by
    rw [update_wire]
    rw [if_neg (by simp)]
    rfl
  refine ⟨?_, ?_, ?_⟩
  · rw [doneRun]
    have hfind : (find_wire (update_wire db X none none (some .done) none now)
        X).isSome = true := by
      rw [find_wire, hup]
      obtain ⟨w0, hw0, hid⟩ := by
        simpa [wireExists, List.any_eq_true] using h
      rw [List.find?_isSome]
      refine ⟨_, List.mem_map.mpr ⟨w0, hw0, rfl⟩, ?_⟩
      simp [hid]
    obtain ⟨w', hw'⟩ := Option.isSome_iff_exists.mp hfind
    simp only [hw']
  · rw [hup]
    rintro w hw hid
    obtain ⟨w0, hw0, rfl⟩ := List.mem_map.mp hw
    by_cases h0 : w0.id = X
    · rw [if_pos h0]
    · rw [if_neg h0] at hid ⊢
      exact absurd hid h0
  · intro i
    simp only [check_incomplete_dependencies, List.mem_map, List.mem_filter,
      Bool.and_eq_true, decide_eq_true_eq, Bool.not_eq_true',
      decide_eq_false_iff_not]
    constructor
    · rintro ⟨w, ⟨hw, hmem, hst⟩, rfl⟩
      exact ⟨w, hw, hmem, hst, rfl⟩
    · rintro ⟨w, hw, hmem, hst, rfl⟩
      exact ⟨w, ⟨hw, hmem, hst⟩, rfl⟩

/-- C6 (amended): `add_dependency` and the Done transition addressed at a
nonexistent task id fail with the task-not-found error and apply no mutation,
and `update_wire` addressed at a nonexistent id changes nothing; but
`remove_dependency` performs no existence check — it always succeeds, and
when the addressed edge is absent it leaves the store unchanged. -/
theorem missing_id_mutation_semantics (db : DB) (u v : String) (now : Int)
    (t : Option String) (d : Option (Option String)) (s : Option Status)
    (p : Option Int) (hu : wireExists db u = false) :
    add_dependency db u v = .error (.WireNotFound u) ∧
    (wireExists db v = true → add_dependency db v u = .error (.WireNotFound u)) ∧
    doneRun db u now = .error (.WireNotFound u) ∧
    update_wire db u t d s p now = db ∧
    (∃ db', remove_dependency db u v = .ok db') ∧
    ((u, v) ∉ db.deps → remove_dependency db u v = .ok db) := by
  refine ⟨?_, ?_, doneRun_missing db u now hu,
    update_wire_missing db u t d s p now hu, ⟨_, rfl⟩, ?_⟩
  · rw [add_dependency, if_pos (by simp [hu])]
  · intro hv
    rw [add_dependency, if_neg (by simp [hv]), if_pos (by simp [hu])]
  · intro hmem
    rw [remove_dependency]
    have hfilter : db.deps.filter
        (fun q => !(decide (q.1 = u) && decide (q.2 = v))) = db.deps := by
      rw [List.filter_eq_self]
      intro q hq
      by_cases h1 : q.1 = u
      · by_cases h2 : q.2 = v
        · exfalso
          apply hmem
          have hqe : q = (u, v) := by
            cases q
            simp_all
          rw [← hqe]
          exact hq
        · simp [h2]
      · simp [h1]
    rw [hfilter]

/-- C3 counterexample: with edges a→b and b→c, proposing c→a is rejected,
but the reported path is `["c", "a", "c"]`, which does not cover the
intermediate node b — the claim's required path covering a, b and c is not
what the code produces. -/
theorem indirect_cycle_path_omits_b :
    add_dependency dbChain "c" "a" =
      .error (.CircularDependency ["c", "a", "c"]) ∧
    "b" ∉ (["c", "a", "c"] : List String) := by
  exact ⟨by rfl, by decide⟩

/-- C8: a diamond is not misreported as a cycle: with edges d→b, d→c, b→a,
c→a, the cycle check for the proposed edge d→a reports no cycle and the
insertion succeeds, appending exactly that edge. -/
theorem diamond_is_not_a_cycle :
    would_create_cycle dbDiamond.deps "d" "a" = none ∧
    add_dependency dbDiamond "d" "a" =
      .ok ⟨dbDiamond.wires, dbDiamond.deps ++ [("d", "a")]⟩ := by
  exact ⟨by decide, by rfl⟩

/-- C10: no read-back description is ever `some ""`: `wire_from_row` filters
the empty string, and both writers store an absent or explicitly cleared
description as `""`, so both read back as `none` and are indistinguishable. -/
theorem description_never_reads_empty :
    (∀ stored : Option String, wire_from_row_description stored ≠ some "") ∧
    wire_from_row_description (some (insert_wire_description none)) = none ∧
    wire_from_row_description (some (insert_wire_description (some ""))) = none ∧
    wire_from_row_description (some (update_wire_description none)) = none ∧
    wire_from_row_description (some (update_wire_description (some ""))) = none := by
  refine ⟨?_, by decide, by decide, by decide, by decide⟩
  intro stored h
  cases stored with
  | none => cases h
  | some str =>
    by_cases he : str.isEmpty
    · simp [wire_from_row_description, Option.filter, he] at h
    · have hstr : str = "" := by
        simpa [wire_from_row_description, Option.filter, he] using h
      rw [hstr] at he
      exact he rfl

/-- Witness for C1 at a concrete store: two tasks, an empty (hence acyclic)
edge set, and a request sequence whose second request is rejected. -/
theorem applyAdds_acyclic_witness :
    Acyclic (DB.mk [mkWire "a", mkWire "b"] []).deps ∧
    Acyclic (applyAdds (DB.mk [mkWire "a", mkWire "b"] [])
      [("a", "b"), ("b", "a")]).deps :=
  ⟨acyclic_nil,
   applyAdds_acyclic (DB.mk [mkWire "a", mkWire "b"] [])
     [("a", "b"), ("b", "a")] acyclic_nil⟩

/-- Witness for C3 (amended) at the chain a→b, b→c with proposed edge c→a. -/
theorem would_create_cycle_some_shape_witness :
    would_create_cycle [("a", "b"), ("b", "c")] "c" "a" =
      some ["c", "a", "c"] ∧
    (["c", "a", "c"] : List String) = ["c", "a", "c"] :=
  ⟨by decide,
   would_create_cycle_some_shape [("a", "b"), ("b", "c")] "c" "a"
     ["c", "a", "c"] (by decide) (by decide)⟩

/-- Witness for C5: task a (Todo) depends on task b (Todo); marking a Done
succeeds with b reported as an incomplete dependency. -/
theorem done_sets_done_and_warns_witness :
    wireExists dbAB "a" = true ∧
    doneRun dbAB "a" 5 =
      .ok (update_wire dbAB "a" none none (some .done) none 5,
           check_incomplete_dependencies dbAB "a") :=
  ⟨by decide, (done_sets_done_and_warns dbAB "a" 5 (by decide)).1⟩

/-- Witness for C6 (amended) at a store holding only task b, with the
missing id a. -/
theorem missing_id_mutation_semantics_witness :
    wireExists dbOnlyB "a" = false ∧
    add_dependency dbOnlyB "a" "b" = .error (.WireNotFound "a") :=
  ⟨by decide,
   (missing_id_mutation_semantics dbOnlyB "a" "b" 0 none none none none
     (by decide)).1⟩

/-- Witness for C7 at the existing task a. -/
theorem self_edge_rejected_witness :
    wireExists dbAB "a" = true ∧
    add_dependency dbAB "a" "a" = .error (.CircularDependency ["a", "a"]) :=
  ⟨by decide, self_edge_rejected dbAB "a" (by decide)⟩

/-- Witness for C9: the edge a→b is already stored; adding it again succeeds
and returns the store unchanged. -/
theorem add_dependency_idem_witness :
    ("a", "b") ∈ dbAB.deps ∧ add_dependency dbAB "a" "b" = .ok dbAB :=
  ⟨by decide,
   add_dependency_idem dbAB "a" "b" (by decide) (by decide) (by decide)
     (acyclic_of_rank dbAB.deps (fun x => if x = "a" then 1 else 0)
       (by decide))⟩

/-- C6 counterexample: on an empty store, removing a dependency between two
nonexistent ids does not fail with a task-not-found error — it succeeds and
returns the store unchanged. -/
theorem remove_dependency_missing_id_succeeds :
    remove_dependency (DB.mk [] []) "a" "b" = .ok (DB.mk [] []) ∧
    remove_dependency (DB.mk [] []) "a" "b" ≠
      .error (.WireNotFound "a") ∧
    remove_dependency (DB.mk [] []) "a" "b" ≠
      .error (.WireNotFound "b") := by
  refine ⟨by rfl, ?_, ?_⟩ <;> intro h <;> cases h

end Wires
